import Mathlib

/-!
A verification development for a tiny SRT subtitle library.

The library parses SRT formatted text into `Subtitle` records, converts
timestamps to and from duration values, legalises subtitle content, sorts
and reindexes subtitle sequences, and composes records back into SRT text.

Python strings are modelled as lists of characters, `datetime.timedelta`
as a total count of microseconds, generators as lists, and exceptions as
`Except` results.  Python's `int()` is modelled for ASCII decimal input
(optionally signed, optionally whitespace-padded); the exotic forms it
also accepts (unicode digits, underscore separators) play no role here.
-/

deriving instance DecidableEq for Except

namespace Srt

/-- Python strings are modelled as lists of characters. -/
abbrev Str := List Char

/-- ASCII whitespace, as stripped by Python str.strip and str.isspace. -/
def isPySpace (c : Char) : Bool :=
  c = ' ' || c = '\t' || c = '\n' || c = '\r' || c = '\x0b' || c = '\x0c'

/-- Strip leading and trailing whitespace, as Python str.strip(). -/
def pyStrip (s : Str) : Str :=
  ((s.dropWhile isPySpace).reverse.dropWhile isPySpace).reverse

/-- Split a list at every character satisfying p, keeping empty segments;
this mirrors re.split with a single-character class, and str.split with a
single separator character. -/
def splitOnPred (p : Char → Bool) : Str → List Str
  | [] => [[]]
  | c :: t =>
    let r := splitOnPred p t
    if p c then [] :: r
    else (c :: r.headD []) :: r.tail

/-- Digit-string to number, most significant digit first. -/
def digitsToNatAux : Nat → Str → Nat
  | acc, [] => acc
  | acc, c :: r => digitsToNatAux (acc * 10 + (c.toNat - 48)) r

/-- Value of a string of decimal digits. -/
def digitsToNat (s : Str) : Nat := digitsToNatAux 0 s

/-- Decimal digits of a natural number, with explicit fuel so that the
definition is structural (the wrapper below always supplies enough). -/
def natToDigitsAux : Nat → Nat → Str
  | 0, _ => []
  | fuel + 1, n =>
    if n < 10 then [Nat.digitChar n]
    else natToDigitsAux fuel (n / 10) ++ [Nat.digitChar (n % 10)]

/-- Decimal digits of a natural number, most significant first. -/
def natToDigits (n : Nat) : Str := natToDigitsAux (n + 1) n

/-- Left-pad a digit string with zeros to the requested width. -/
def padZeros (width : Nat) (ds : Str) : Str :=
  List.replicate (width - ds.length) '0' ++ ds

/-- Python percent-formatting of an integer with zero padding, as in
'%02d' and '%03d'; for negatives the sign counts towards the width. -/
def pyFormatInt (width : Nat) (n : Int) : Str :=
  if n < 0 then '-' :: padZeros (width - 1) (natToDigits (-n).toNat)
  else padZeros width (natToDigits n.toNat)

/-- Python's int() on a string: optional surrounding whitespace, optional
sign, then decimal digits; anything else is a failure. -/
def pyInt (s : Str) : Option Int :=
  match pyStrip s with
  | [] => none
  | c :: ds =>
    if c = '-' then
      if !ds.isEmpty && ds.all Char.isDigit then some (-(digitsToNat ds : Int)) else none
    else if c = '+' then
      if !ds.isEmpty && ds.all Char.isDigit then some ((digitsToNat ds : Int)) else none
    else
      if (c :: ds).all Char.isDigit then some ((digitsToNat (c :: ds) : Int)) else none

/-- Microseconds in a day. -/
def USEC_PER_DAY : Int := 86400000000

/-- Microseconds in a second. -/
def USEC_PER_SEC : Int := 1000000

/-- datetime.timedelta, represented by its total signed microsecond count.
Python normalises a timedelta to days, seconds in [0, 86400) and
microseconds in [0, 1000000); those components are recovered below. -/
structure Timedelta where
  micro : Int
  deriving Repr, DecidableEq, Hashable

/-- The normalised days component (floor division, as in Python). -/
def Timedelta.days (t : Timedelta) : Int := t.micro / USEC_PER_DAY

/-- The normalised seconds-in-day component, in [0, 86400). -/
def Timedelta.seconds (t : Timedelta) : Int :=
  t.micro % USEC_PER_DAY / USEC_PER_SEC

/-- The normalised microseconds component, in [0, 1000000). -/
def Timedelta.microseconds (t : Timedelta) : Int := t.micro % USEC_PER_SEC

/-- timedelta(hours=, minutes=, seconds=, milliseconds=). -/
def timedeltaHMSms (hrs mins secs msecs : Int) : Timedelta :=
  ⟨((hrs * 3600 + mins * 60 + secs) * 1000 + msecs) * 1000⟩

/-- timedelta_to_srt_timestamp: format a timedelta as HH:MM:SS,mmm with
hours = days * 24 + hour of day, via divmod as in the source. -/
def timedelta_to_srt_timestamp (timedelta_timestamp : Timedelta) : Str :=
  let hrs0 := timedelta_timestamp.seconds / 3600
  let secs_remainder := timedelta_timestamp.seconds % 3600
  let hrs := hrs0 + timedelta_timestamp.days * 24
  let mins := secs_remainder / 60
  let secs := secs_remainder % 60
  let msecs := timedelta_timestamp.microseconds / 1000
  pyFormatInt 2 hrs ++ (':' :: (pyFormatInt 2 mins ++ (':' :: (pyFormatInt 2 secs ++ (',' :: pyFormatInt 3 msecs)))))

/-- The decode failure for malformed timestamp text (the source signals
this case with Python's ValueError). -/
structure TimestampFormatError where
  text : Str
  deriving Repr, DecidableEq

/-- The separators of re.split applied in srt_timestamp_to_timedelta. -/
def isTsSep (c : Char) : Bool := c = ',' || c = ':' || c = '.'

/-- srt_timestamp_to_timedelta: split on any of comma, colon, dot; require
exactly four integer fields; build the timedelta from hours, minutes,
seconds and milliseconds. -/
def srt_timestamp_to_timedelta (srt_timestamp : Str) : Except TimestampFormatError Timedelta :=
  match splitOnPred isTsSep srt_timestamp with
  | [a, b, c, d] =>
    match pyInt a with
    | none => .error ⟨srt_timestamp⟩
    | some hrs =>
      match pyInt b with
      | none => .error ⟨srt_timestamp⟩
      | some mins =>
        match pyInt c with
        | none => .error ⟨srt_timestamp⟩
        | some secs =>
          match pyInt d with
          | none => .error ⟨srt_timestamp⟩
          | some msecs => .ok (timedeltaHMSms hrs mins secs msecs)
  | _ => .error ⟨srt_timestamp⟩

/-- Python's sep.join for a single-character separator. -/
def joinSep (sep : Char) : List Str → Str
  | [] => []
  | [l] => l
  | l :: ls => l ++ sep :: joinSep sep ls

/-- make_legal_content: split on the literal newline, drop empty lines,
rejoin with newline. -/
def make_legal_content (content : Str) : Str :=
  joinSep '\n'
    ((splitOnPred (fun c => c = '\n') content).filter (fun line => !line.isEmpty))

/-- The Subtitle record: index, start, end, content, proprietary.
The field end is spelt end_ because end is a Lean keyword. -/
structure Subtitle where
  index : Int
  start : Timedelta
  end_ : Timedelta
  content : Str
  proprietary : Str
  deriving Repr, DecidableEq, Hashable

/-- vars(self): the five fields of a subtitle. -/
def Subtitle.vars (s : Subtitle) : Int × Timedelta × Timedelta × Str × Str :=
  (s.index, s.start, s.end_, s.content, s.proprietary)

/-- Subtitle.__eq__: dictionary equality of all five fields. -/
def pyEq (a b : Subtitle) : Bool := decide (a.vars = b.vars)

/-- Subtitle.__lt__: comparison by start time only. -/
def pyLt (a b : Subtitle) : Bool := decide (a.start.micro < b.start.micro)

/-- Subtitle.__hash__: a function of the five fields (the concrete hash
values differ from CPython's, but the dependency structure is the same). -/
def pyHash (s : Subtitle) : UInt64 := hash s.vars

/-- The comparator characterising Python's stable sorted() built on
__lt__: a stays before b whenever not (b < a). -/
def startLe (a b : Subtitle) : Bool := !(pyLt b a)

/-- Content emptiness after str.strip, the drop criterion of
sort_and_reindex. -/
def contentless (s : Subtitle) : Bool := s.content.all isPySpace

/-- Subtitle.to_srt: one SRT block; legalises content when strict. -/
def Subtitle.to_srt (s : Subtitle) (strict : Bool) : Str :=
  let output_content := if strict then make_legal_content s.content else s.content
  let output_proprietary := if s.proprietary.isEmpty then s.proprietary else ' ' :: s.proprietary
  pyFormatInt 1 s.index ++
    ('\n' :: (timedelta_to_srt_timestamp s.start ++
      (' ' :: '-' :: '-' :: '>' :: ' ' :: (timedelta_to_srt_timestamp s.end_ ++
        (output_proprietary ++ ('\n' :: (output_content ++ ['\n', '\n'])))))))

/-- The enumeration loop of sort_and_reindex: walk the sorted list, drop
contentless subtitles, assign consecutive indices to the survivors. -/
def reindexFrom : Int → List Subtitle → List Subtitle
  | _, [] => []
  | next, s :: rest =>
    if contentless s then reindexFrom next rest
    else ⟨next, s.start, s.end_, s.content, s.proprietary⟩ :: reindexFrom (next + 1) rest

/-- sort_and_reindex: stable sort by start time, drop contentless
subtitles, renumber from start_index.  (The in_place flag of the source
only selects between mutation and copying and has no value-level
effect.) -/
def sort_and_reindex (subtitles : List Subtitle) (start_index : Int) : List Subtitle :=
  reindexFrom start_index (subtitles.mergeSort startLe)

/-- compose: optional sort_and_reindex, then concatenation of blocks. -/
def compose (subtitles : List Subtitle) (reindex : Bool) (start_index : Int) (strict : Bool) : Str :=
  ((if reindex then sort_and_reindex subtitles start_index else subtitles).map
    (fun s => s.to_srt strict)).flatten

/-! ### The block tokenizer: a deterministic model of SRT_REGEX

The regex
  (\d+)\n(\d+:\d+:\d+[,.]\d+) --> (\d+:\d+:\d+[,.]\d+) ?([^\n]*)\n(.*?)
  (?:\n|\Z)(?:\n|\Z)(?=(?:\d+\n\d+:|\Z))
with DOTALL is deterministic except for the lazy content group: each
greedy \d+ is followed by a non-digit requirement, so maximal-run
matching is forced, and the lazy (.*?) takes the shortest content whose
following block boundary and look-ahead succeed.  finditer scans left to
right and resumes after each (always non-empty) match. -/

/-- One or more digits, matched maximally (the regex \d+ followed by a
non-digit requirement). -/
def matchNum (s : Str) : Option (Str × Str) :=
  let d := s.takeWhile Char.isDigit
  if d.isEmpty then none else some (d, s.dropWhile Char.isDigit)

/-- The timestamp group \d+:\d+:\d+[,.]\d+. -/
def matchTimestamp (s : Str) : Option (Str × Str) :=
  match matchNum s with
  | none => none
  | some (d1, r1) =>
    match r1 with
    | [] => none
    | c1 :: r2 =>
      if c1 = ':' then
        match matchNum r2 with
        | none => none
        | some (d2, r3) =>
          match r3 with
          | [] => none
          | c2 :: r4 =>
            if c2 = ':' then
              match matchNum r4 with
              | none => none
              | some (d3, r5) =>
                match r5 with
                | [] => none
                | c :: r6 =>
                  if c = ',' ∨ c = '.' then
                    match matchNum r6 with
                    | none => none
                    | some (d4, r7) =>
                      some (d1 ++ (':' :: d2) ++ (':' :: d3) ++ (c :: d4), r7)
                  else none
            else none
      else none

/-- The zero-width look-ahead (?=(?:\d+\n\d+:|\Z)). -/
def nextBlockAhead (s : Str) : Bool :=
  match s with
  | [] => true
  | _ =>
    match matchNum s with
    | none => false
    | some (_, r1) =>
      match r1 with
      | [] => false
      | c1 :: r2 =>
        if c1 = '\n' then
          match matchNum r2 with
          | none => false
          | some (_, r3) =>
            match r3 with
            | [] => false
            | c2 :: _ => c2 = ':'
        else false

/-- The block terminator (?:\n|\Z)(?:\n|\Z) followed by the look-ahead,
tried at a fixed content end; returns consumed length and what follows.
At the end of input both alternatives take the empty-match branch; a
single final newline takes newline then empty; two newlines require the
look-ahead to see a plausible next block (or the end of input). -/
def tryBoundary (s : Str) : Option (Nat × Str) :=
  match s with
  | [] => some (0, [])
  | c :: t =>
    if c = '\n' then
      match t with
      | [] => some (1, [])
      | d :: v =>
        if d = '\n' then (if nextBlockAhead v then some (2, v) else none)
        else none
    else none

/-- The lazy content group (.*?) followed by the boundary: the shortest
prefix whose boundary succeeds wins.  Because the boundary always
succeeds at the end of input, the scan is total. -/
def scanContent : Str → Str × Nat × Str
  | [] => ([], 0, [])
  | c :: t =>
    match tryBoundary (c :: t) with
    | some p => ([], p.1, p.2)
    | none =>
      let r := scanContent t
      (c :: r.1, r.2.1, r.2.2)

/-- The header of a block: index line, timing line with optional
proprietary text, terminating newline.  Returns index digits, both raw
timestamps, proprietary text, and the remaining input. -/
def matchHeader (s : Str) : Option (Str × Str × Str × Str × Str) :=
  match matchNum s with
  | none => none
  | some (idx, r1) =>
    match r1 with
    | [] => none
    | c1 :: r2 =>
      if c1 = '\n' then
        match matchTimestamp r2 with
        | none => none
        | some (ts1, r3) =>
          match r3 with
          | a1 :: a2 :: a3 :: a4 :: a5 :: r4 =>
            if a1 = ' ' ∧ a2 = '-' ∧ a3 = '-' ∧ a4 = '>' ∧ a5 = ' ' then
              match matchTimestamp r4 with
              | none => none
              | some (ts2, r5) =>
                let r6 := if r5.head? = some ' ' then r5.tail else r5
                let prop := r6.takeWhile (fun c => c ≠ '\n')
                match r6.dropWhile (fun c => c ≠ '\n') with
                | [] => none
                | c7 :: r7 => if c7 = '\n' then some (idx, ts1, ts2, prop, r7) else none
            else none
          | _ => none
      else none

/-- The raw captured groups of one matched block. -/
structure RawBlock where
  raw_index : Str
  raw_start : Str
  raw_end : Str
  proprietary : Str
  content : Str
  deriving Repr, DecidableEq

/-- A whole block match at some position: header then lazy content. -/
def matchBlock (s : Str) : Option (RawBlock × Str) :=
  match matchHeader s with
  | some (idx, ts1, ts2, prop, tail) =>
    let r := scanContent tail
    some (⟨idx, ts1, ts2, prop, r.1⟩, r.2.2)
  | none => none

/-- A match with the input span it consumed, as finditer reports it. -/
structure RawMatch where
  startPos : Nat
  endPos : Nat
  block : RawBlock
  deriving Repr, DecidableEq

/-- finditer: try to match at each position from left to right, resuming
after the end of each match.  Fuel makes the recursion structural; the
wrapper below supplies length + 1, which is always sufficient. -/
def findFromF : Nat → Str → Nat → List RawMatch
  | 0, _, _ => []
  | fuel + 1, s, pos =>
    match matchBlock s with
    | some (b, rest) =>
      let n := s.length - rest.length
      ⟨pos, pos + n, b⟩ :: findFromF fuel rest (pos + n)
    | none =>
      match s with
      | [] => []
      | _ :: t => findFromF fuel t (pos + 1)

/-- All matches of SRT_REGEX in s, with their spans. -/
def findAllMatches (s : Str) : List RawMatch := findFromF (s.length + 1) s 0

/-- SRTParseError, as raised by _raise_if_not_contiguous. -/
structure SRTParseError where
  expected_start : Nat
  actual_start : Nat
  unmatched_content : Str
  deriving Repr, DecidableEq

/-- The Python slice srt[expected_start:actual_start]. -/
def sliceStr (s : Str) (a b : Nat) : Str := (s.drop a).take (b - a)

/-- Decode a raw timestamp group.  A group matched by the timestamp
pattern always decodes (shown in matchTimestamp_decodes below); the
fallback branch is unreachable for matched groups. -/
def decodeTimestampOr (s : Str) : Timedelta :=
  match srt_timestamp_to_timedelta s with
  | .ok td => td
  | .error _ => ⟨0⟩

/-- Build the Subtitle yielded for one matched block. -/
def rawToSubtitle (b : RawBlock) : Subtitle :=
  ⟨(digitsToNat b.raw_index : Int), decodeTimestampOr b.raw_start,
    decodeTimestampOr b.raw_end, b.content, b.proprietary⟩

/-- The contiguity-checking loop of parse: each match must start exactly
where the previous one ended (_raise_if_not_contiguous), and the final
match must end at the end of input; the first violation is fatal and
yields no subtitles. -/
def checkContiguous (s : Str) : Nat → List RawMatch → Except SRTParseError (List Subtitle)
  | expected_start, [] =>
    if expected_start = s.length then .ok []
    else .error ⟨expected_start, s.length, sliceStr s expected_start s.length⟩
  | expected_start, m :: ms =>
    if expected_start = m.startPos then
      match checkContiguous s m.endPos ms with
      | .ok subs => .ok (rawToSubtitle m.block :: subs)
      | .error e => .error e
    else .error ⟨expected_start, m.startPos, sliceStr s expected_start m.startPos⟩

/-- Whether a match list tiles the input exactly from a given offset. -/
def spansOk (s : Str) : Nat → List RawMatch → Bool
  | expected, [] => expected == s.length
  | expected, m :: ms => expected == m.startPos && spansOk s m.endPos ms

/-- parse: all regex matches, checked for contiguity, converted to
subtitles; any coverage gap is an SRTParseError. -/
def parse (srt : Str) : Except SRTParseError (List Subtitle) :=
  checkContiguous srt 0 (findAllMatches srt)

/-! ### Canonical well-formed texts

A text is well formed when it is the rendering of a canonical subtitle
list: indices 1, 2, ..., sorted by start time, non-negative whole-
millisecond timestamps, every content line non-blank, and newline-free
proprietary text.  These are exactly the texts with non-blank content
lines and no stray whitespace that parse and compose both preserve. -/

/-- Every content line (split on the literal newline) contains a
non-whitespace character. -/
def goodContent (c : Str) : Bool :=
  (splitOnPred (fun ch => ch = '\n') c).all (fun line => line.any (fun ch => !isPySpace ch))

/-- A subtitle whose rendered block parses back to itself. -/
def goodSub (s : Subtitle) : Bool :=
  decide (0 ≤ s.index) &&
  decide (0 ≤ s.start.micro) && decide (s.start.micro % 1000 = 0) &&
  decide (0 ≤ s.end_.micro) && decide (s.end_.micro % 1000 = 0) &&
  goodContent s.content && s.proprietary.all (fun ch => ch ≠ '\n')

/-- A canonical subtitle list: good subtitles, sorted by start time,
indexed consecutively from 1. -/
def canonicalList (subs : List Subtitle) : Prop :=
  (∀ s ∈ subs, goodSub s = true) ∧
  List.Pairwise (fun a b => a.start.micro ≤ b.start.micro) subs ∧
  subs.map Subtitle.index = (List.range subs.length).map (fun k : Nat => 1 + (k : Int))

/-- The rendering of a subtitle list as strict SRT blocks. -/
def renderList (subs : List Subtitle) : Str :=
  (subs.map (fun s => s.to_srt true)).flatten

/-- A well-formed SRT text: the rendering of some canonical list. -/
def wellFormedText (t : Str) : Prop :=
  ∃ subs, canonicalList subs ∧ t = renderList subs

/-- The four fields of a subtitle other than its index; reindexing
preserves exactly this payload. -/
def Subtitle.payload (s : Subtitle) : Timedelta × Timedelta × Str × Str :=
  (s.start, s.end_, s.content, s.proprietary)

/-- The raw groups the tokenizer captures for a rendered subtitle. -/
def rawOfSub (s : Subtitle) : RawBlock :=
  ⟨pyFormatInt 1 s.index, timedelta_to_srt_timestamp s.start,
    timedelta_to_srt_timestamp s.end_, s.proprietary, s.content⟩

/-- The spans finditer reports on a rendering, with running offsets. -/
def spansFrom : List Subtitle → Nat → List RawMatch
  | [], _ => []
  | s :: rest, pos =>
    ⟨pos, pos + (s.to_srt true).length, rawOfSub s⟩ ::
      spansFrom rest (pos + (s.to_srt true).length)

/-- The ordering invariant of a finditer result: spans are ordered,
start at or after a lower bound, and end at or before an upper bound. -/
def ChainInv : List RawMatch → Nat → Nat → Prop
  | [], lo, hi => lo ≤ hi
  | m :: ms, lo, hi =>
    lo ≤ m.startPos ∧ m.startPos ≤ m.endPos ∧ m.endPos ≤ hi ∧ ChainInv ms m.endPos hi

/-! ### Lemmas: digit strings and number formatting -/

theorem digitChar_isDigit {d : Nat} (h : d < 10) : (Nat.digitChar d).isDigit = true := by
  interval_cases d <;> decide

theorem digitChar_toNat {d : Nat} (h : d < 10) : (Nat.digitChar d).toNat = 48 + d := by
  interval_cases d <;> decide

theorem digitsToNatAux_nil (acc : Nat) : digitsToNatAux acc [] = acc := rfl

theorem digitsToNatAux_cons (acc : Nat) (c : Char) (r : Str) :
    digitsToNatAux acc (c :: r) = digitsToNatAux (acc * 10 + (c.toNat - 48)) r := rfl

theorem digitsToNatAux_append (acc : Nat) (xs ys : Str) :
    digitsToNatAux acc (xs ++ ys) = digitsToNatAux (digitsToNatAux acc xs) ys := by
  induction xs generalizing acc with
  | nil => rfl
  | cons c r ih =>
    rw [List.cons_append, digitsToNatAux_cons, ih, digitsToNatAux_cons]

theorem natToDigitsAux_spec : ∀ fuel n, n < fuel →
    (natToDigitsAux fuel n).all Char.isDigit = true ∧
    natToDigitsAux fuel n ≠ [] ∧
    ∀ acc, digitsToNatAux acc (natToDigitsAux fuel n) =
      acc * 10 ^ (natToDigitsAux fuel n).length + n := by
  intro fuel
  induction fuel with
  | zero => omega
  | succ fuel ih =>
    intro n hn
    by_cases h : n < 10
    · have hstep : natToDigitsAux (fuel + 1) n = [Nat.digitChar n] := by
        simp [natToDigitsAux, h]
      rw [hstep]
      refine ⟨by simpa using digitChar_isDigit h, by simp, ?_⟩
      intro acc
      rw [digitsToNatAux_cons, digitsToNatAux_nil, digitChar_toNat h]
      simp only [List.length_cons, List.length_nil, pow_one]
      omega
    · have h10 : n / 10 < fuel := by omega
      obtain ⟨ha, hne, hval⟩ := ih (n / 10) h10
      have hd : (Nat.digitChar (n % 10)).isDigit = true := digitChar_isDigit (by omega)
      have hstep : natToDigitsAux (fuel + 1) n =
          natToDigitsAux fuel (n / 10) ++ [Nat.digitChar (n % 10)] := by
        simp [natToDigitsAux, h]
      rw [hstep]
      refine ⟨by simp [List.all_append, ha, hd], by simp, ?_⟩
      intro acc
      rw [digitsToNatAux_append, hval acc]
      have hc : (Nat.digitChar (n % 10)).toNat = 48 + n % 10 := digitChar_toNat (by omega)
      rw [digitsToNatAux_cons, digitsToNatAux_nil, hc]
      simp only [Nat.add_sub_cancel_left, List.length_append,
        List.length_cons, List.length_nil]
      have hdm : n / 10 * 10 + n % 10 = n := by omega
      calc (acc * 10 ^ (natToDigitsAux fuel (n / 10)).length + n / 10) * 10 + n % 10
          = acc * (10 ^ (natToDigitsAux fuel (n / 10)).length * 10) +
              (n / 10 * 10 + n % 10) := by ring
        _ = acc * 10 ^ ((natToDigitsAux fuel (n / 10)).length + (0 + 1)) + n := by
            rw [hdm, pow_succ]

theorem natToDigits_all (n : Nat) : (natToDigits n).all Char.isDigit = true :=
  (natToDigitsAux_spec (n + 1) n (by omega)).1

theorem natToDigits_ne_nil (n : Nat) : natToDigits n ≠ [] :=
  (natToDigitsAux_spec (n + 1) n (by omega)).2.1

theorem digitsToNat_natToDigits (n : Nat) : digitsToNat (natToDigits n) = n := by
  have h := (natToDigitsAux_spec (n + 1) n (by omega)).2.2 0
  simpa [digitsToNat, natToDigits] using h

theorem digitsToNatAux_zeros : ∀ k, digitsToNatAux 0 (List.replicate k '0') = 0 := by
  intro k
  induction k with
  | zero => rfl
  | succ k ih =>
    have h0 : (0 : Nat) * 10 + ('0'.toNat - 48) = 0 := by decide
    rw [List.replicate_succ, digitsToNatAux_cons, h0]
    exact ih

theorem padZeros_all {ds : Str} (w : Nat) (h : ds.all Char.isDigit = true) :
    (padZeros w ds).all Char.isDigit = true := by
  simp only [padZeros, List.all_append, h, Bool.and_true]
  have : ∀ c ∈ List.replicate (w - ds.length) '0', Char.isDigit c = true := by
    intro c hc
    rw [List.eq_of_mem_replicate hc]
    decide
  exact List.all_eq_true.mpr this

theorem padZeros_ne_nil {ds : Str} (w : Nat) (h : ds ≠ []) : padZeros w ds ≠ [] := by
  simp [padZeros, h]

theorem digitsToNat_padZeros (w : Nat) (ds : Str) :
    digitsToNat (padZeros w ds) = digitsToNat ds := by
  simp [digitsToNat, padZeros, digitsToNatAux_append, digitsToNatAux_zeros]

theorem pyFormatInt_nonneg (w : Nat) {n : Int} (h : 0 ≤ n) :
    pyFormatInt w n = padZeros w (natToDigits n.toNat) := by
  rw [pyFormatInt, if_neg (by omega)]

theorem pyFormatInt_all {n : Int} (w : Nat) (h : 0 ≤ n) :
    (pyFormatInt w n).all Char.isDigit = true := by
  rw [pyFormatInt_nonneg w h]; exact padZeros_all w (natToDigits_all _)

theorem pyFormatInt_ne_nil {n : Int} (w : Nat) (h : 0 ≤ n) : pyFormatInt w n ≠ [] := by
  rw [pyFormatInt_nonneg w h]; exact padZeros_ne_nil w (natToDigits_ne_nil _)

/-! ### Lemmas: character classes -/

theorem not_space_of_isDigit {c : Char} (h : c.isDigit = true) : isPySpace c = false := by
  have h1 : c ≠ ' ' := by rintro rfl; exact absurd h (by decide)
  have h2 : c ≠ '\t' := by rintro rfl; exact absurd h (by decide)
  have h3 : c ≠ '\n' := by rintro rfl; exact absurd h (by decide)
  have h4 : c ≠ '\r' := by rintro rfl; exact absurd h (by decide)
  have h5 : c ≠ '\x0b' := by rintro rfl; exact absurd h (by decide)
  have h6 : c ≠ '\x0c' := by rintro rfl; exact absurd h (by decide)
  simp [isPySpace, h1, h2, h3, h4, h5, h6]

theorem not_sep_of_isDigit {c : Char} (h : c.isDigit = true) : isTsSep c = false := by
  have h1 : c ≠ ',' := by rintro rfl; exact absurd h (by decide)
  have h2 : c ≠ ':' := by rintro rfl; exact absurd h (by decide)
  have h3 : c ≠ '.' := by rintro rfl; exact absurd h (by decide)
  simp [isTsSep, h1, h2, h3]

theorem ne_nl_of_isDigit {c : Char} (h : c.isDigit = true) : c ≠ '\n' := by
  rintro rfl; exact absurd h (by decide)

theorem ne_minus_of_isDigit {c : Char} (h : c.isDigit = true) : c ≠ '-' := by
  rintro rfl; exact absurd h (by decide)

theorem ne_plus_of_isDigit {c : Char} (h : c.isDigit = true) : c ≠ '+' := by
  rintro rfl; exact absurd h (by decide)

/-! ### Lemmas: pyStrip and pyInt on digit strings -/

theorem dropWhile_eq_self_of {p : Char → Bool} {l : Str}
    (h : ∀ c ∈ l, p c = false) : l.dropWhile p = l := by
  cases l with
  | nil => rfl
  | cons c t =>
    rw [List.dropWhile_cons, if_neg]
    simp [h c (List.mem_cons_self c t)]

theorem pyStrip_of_no_space {ds : Str} (h : ∀ c ∈ ds, isPySpace c = false) :
    pyStrip ds = ds := by
  unfold pyStrip
  rw [dropWhile_eq_self_of h, dropWhile_eq_self_of (by simpa using h), List.reverse_reverse]

theorem pyInt_digits {ds : Str} (hne : ds ≠ []) (h : ds.all Char.isDigit = true) :
    pyInt ds = some ((digitsToNat ds : Int)) := by
  have hd : ∀ c ∈ ds, Char.isDigit c = true := List.all_eq_true.mp h
  unfold pyInt
  rw [pyStrip_of_no_space (fun c hc => not_space_of_isDigit (hd c hc))]
  cases ds with
  | nil => exact absurd rfl hne
  | cons c r =>
    have hc : c.isDigit = true := hd c (List.mem_cons_self c r)
    simp [ne_minus_of_isDigit hc, ne_plus_of_isDigit hc, h]

/-! ### Lemmas: splitOnPred and joinSep -/

theorem splitOnPred_ne_nil (p : Char → Bool) (s : Str) : splitOnPred p s ≠ [] := by
  cases s with
  | nil => simp [splitOnPred]
  | cons c t =>
    simp only [splitOnPred]
    split <;> simp

theorem splitOnPred_cons_sep (p : Char → Bool) {c : Char} (h : p c = true) (y : Str) :
    splitOnPred p (c :: y) = [] :: splitOnPred p y := by
  simp [splitOnPred, h]

theorem splitOnPred_append_of_sepfree {p : Char → Bool} {x : Str}
    (hx : ∀ c ∈ x, p c = false) {y f : Str} {rest : List Str}
    (hy : splitOnPred p y = f :: rest) :
    splitOnPred p (x ++ y) = (x ++ f) :: rest := by
  induction x with
  | nil => simpa using hy
  | cons c t ih =>
    have hc : p c = false := hx c (List.mem_cons_self c t)
    have ht : splitOnPred p (t ++ y) = (t ++ f) :: rest :=
      ih (fun d hd => hx d (List.mem_cons_of_mem c hd))
    simp [splitOnPred, ht, hc]

theorem splitOnPred_sepfree {p : Char → Bool} {x : Str}
    (hx : ∀ c ∈ x, p c = false) : splitOnPred p x = [x] := by
  have h0 : splitOnPred p ([] : Str) = [] :: [] := by simp [splitOnPred]
  have := splitOnPred_append_of_sepfree hx h0
  simpa using this

theorem mem_splitOnPred_sepfree (p : Char → Bool) :
    ∀ s : Str, ∀ l ∈ splitOnPred p s, ∀ c ∈ l, p c = false := by
  intro s
  induction s with
  | nil => simp [splitOnPred]
  | cons c t ih =>
    intro l hl
    simp only [splitOnPred] at hl
    by_cases hc : p c = true
    · rw [if_pos hc] at hl
      rcases List.mem_cons.mp hl with h | h
      · subst h; simp
      · exact ih l h
    · rw [if_neg hc] at hl
      have hr := splitOnPred_ne_nil p t
      rcases hrr : splitOnPred p t with _ | ⟨f, rest⟩
      · exact absurd hrr hr
      · rw [hrr] at hl
        simp only [List.headD_cons, List.tail_cons] at hl
        rcases List.mem_cons.mp hl with h | h
        · subst h
          intro d hd
          rcases List.mem_cons.mp hd with h | h
          · subst h; simpa using hc
          · exact ih f (by rw [hrr]; exact List.mem_cons_self f rest) d h
        · exact ih l (by rw [hrr]; exact List.mem_cons_of_mem f h)

theorem joinSep_cons_cons (sep : Char) (f g : Str) (more : List Str) :
    joinSep sep (f :: g :: more) = f ++ sep :: joinSep sep (g :: more) := rfl

theorem joinSep_splitOnPred {p : Char → Bool} {sep : Char}
    (honly : ∀ c, p c = true → c = sep) :
    ∀ s : Str, joinSep sep (splitOnPred p s) = s := by
  intro s
  induction s with
  | nil => rfl
  | cons c t ih =>
    by_cases hc : p c = true
    · have hcs : c = sep := honly c hc
      rw [splitOnPred_cons_sep p hc]
      rcases hrr : splitOnPred p t with _ | ⟨f, rest⟩
      · exact absurd hrr (splitOnPred_ne_nil p t)
      · rw [hrr] at ih
        subst hcs
        rw [joinSep_cons_cons, ih]
        rfl
    · simp only [splitOnPred, if_neg hc]
      rcases hrr : splitOnPred p t with _ | ⟨f, rest⟩
      · exact absurd hrr (splitOnPred_ne_nil p t)
      · rw [hrr] at ih
        cases rest with
        | nil => simpa [joinSep] using ih
        | cons g more =>
          simp only [List.headD_cons, List.tail_cons]
          rw [joinSep_cons_cons] at ih
          rw [joinSep_cons_cons]
          simpa using ih

theorem splitOnPred_joinSep {p : Char → Bool} {sep : Char} (hsep : p sep = true) :
    ∀ parts : List Str, parts ≠ [] → (∀ l ∈ parts, ∀ c ∈ l, p c = false) →
    splitOnPred p (joinSep sep parts) = parts := by
  intro parts
  induction parts with
  | nil => intro h; exact absurd rfl h
  | cons f rest ih =>
    intro _ hfree
    cases rest with
    | nil =>
      simpa [joinSep] using splitOnPred_sepfree (hfree f (List.mem_cons_self f []))
    | cons g more =>
      have hjoin : joinSep sep (f :: g :: more) = f ++ sep :: joinSep sep (g :: more) := rfl
      rw [hjoin]
      have hy : splitOnPred p (sep :: joinSep sep (g :: more)) =
          [] :: splitOnPred p (joinSep sep (g :: more)) := splitOnPred_cons_sep p hsep _
      have hrec : splitOnPred p (joinSep sep (g :: more)) = g :: more :=
        ih (by simp) (fun l hl => hfree l (List.mem_cons_of_mem f hl))
      rw [hrec] at hy
      have := splitOnPred_append_of_sepfree (hfree f (List.mem_cons_self f _)) hy
      simpa using this

/-! ### Lemmas: the legalizer -/

theorem make_legal_content_parts (x : Str) :
    (splitOnPred (fun c => c = '\n') (make_legal_content x)).filter (fun l => !l.isEmpty) =
    (splitOnPred (fun c => c = '\n') x).filter (fun l => !l.isEmpty) := by
  rcases hparts : (splitOnPred (fun c => c = '\n') x).filter (fun l => !l.isEmpty) with
    _ | ⟨f, rest⟩
  · unfold make_legal_content
    rw [hparts]
    rfl
  · unfold make_legal_content
    rw [hparts]
    have hfree : ∀ l ∈ f :: rest, ∀ c ∈ l, (decide (c = '\n')) = false := by
      intro l hl c hc
      have hl2 : l ∈ splitOnPred (fun c => c = '\n') x := by
        have := hparts ▸ hl
        exact List.mem_of_mem_filter this
      exact mem_splitOnPred_sepfree _ x l hl2 c hc
    rw [splitOnPred_joinSep (by simp) (f :: rest) (by simp) hfree]
    rw [List.filter_eq_self.mpr]
    intro l hl
    have := hparts ▸ hl
    exact (List.mem_filter.mp this).2

theorem make_legal_content_idem (x : Str) :
    make_legal_content (make_legal_content x) = make_legal_content x := by
  conv_lhs => rw [make_legal_content, make_legal_content_parts x]
  rfl

/-! ### Lemmas: the timestamp codec -/

theorem pyInt_pyFormatInt {n : Int} (w : Nat) (h : 0 ≤ n) :
    pyInt (pyFormatInt w n) = some n := by
  rw [pyFormatInt_nonneg w h,
    pyInt_digits (padZeros_ne_nil w (natToDigits_ne_nil _)) (padZeros_all w (natToDigits_all _)),
    digitsToNat_padZeros, digitsToNat_natToDigits, Int.toNat_of_nonneg h]

theorem sepfree_pyFormatInt {n : Int} (w : Nat) (h : 0 ≤ n) :
    ∀ c ∈ pyFormatInt w n, isTsSep c = false := fun c hc =>
  not_sep_of_isDigit (List.all_eq_true.mp (pyFormatInt_all w h) c hc)

theorem splitOnPred_sep_append {p : Char → Bool} {x : Str}
    (hx : ∀ c ∈ x, p c = false) {c : Char} (hc : p c = true) (y : Str) :
    splitOnPred p (x ++ c :: y) = x :: splitOnPred p y := by
  have := splitOnPred_append_of_sepfree hx (splitOnPred_cons_sep p hc y)
  simpa using this

/-- The rendered timestamp, with the let-bindings of the definition
spelt out. -/
theorem timedelta_to_srt_timestamp_eq (td : Timedelta) :
    timedelta_to_srt_timestamp td =
      pyFormatInt 2 (td.seconds / 3600 + td.days * 24) ++
        (':' :: (pyFormatInt 2 (td.seconds % 3600 / 60) ++
          (':' :: (pyFormatInt 2 (td.seconds % 3600 % 60) ++
            (',' :: pyFormatInt 3 (td.microseconds / 1000)))))) := rfl

theorem timedelta_fields_nonneg (td : Timedelta) (h0 : 0 ≤ td.micro) :
    0 ≤ td.seconds / 3600 + td.days * 24 ∧
    0 ≤ td.seconds % 3600 / 60 ∧
    0 ≤ td.seconds % 3600 % 60 ∧
    0 ≤ td.microseconds / 1000 := by
  simp only [Timedelta.seconds, Timedelta.days, Timedelta.microseconds,
    USEC_PER_DAY, USEC_PER_SEC]
  omega

theorem splitOnPred_timestamp (td : Timedelta) (h0 : 0 ≤ td.micro) :
    splitOnPred isTsSep (timedelta_to_srt_timestamp td) =
      [pyFormatInt 2 (td.seconds / 3600 + td.days * 24),
       pyFormatInt 2 (td.seconds % 3600 / 60),
       pyFormatInt 2 (td.seconds % 3600 % 60),
       pyFormatInt 3 (td.microseconds / 1000)] := by
  obtain ⟨hh, hm, hs, hms⟩ := timedelta_fields_nonneg td h0
  rw [timedelta_to_srt_timestamp_eq,
    splitOnPred_sep_append (sepfree_pyFormatInt 2 hh) (by decide),
    splitOnPred_sep_append (sepfree_pyFormatInt 2 hm) (by decide),
    splitOnPred_sep_append (sepfree_pyFormatInt 2 hs) (by decide),
    splitOnPred_sepfree (sepfree_pyFormatInt 3 hms)]

theorem Timedelta.micro_inj {a b : Timedelta} (h : a.micro = b.micro) : a = b := by
  cases a; cases b; simpa using h

theorem timedeltaHMSms_fields (td : Timedelta)
    (h1000 : td.micro % 1000 = 0) :
    timedeltaHMSms (td.seconds / 3600 + td.days * 24)
      (td.seconds % 3600 / 60) (td.seconds % 3600 % 60)
      (td.microseconds / 1000) = td := by
  apply Timedelta.micro_inj
  simp only [Timedelta.seconds, Timedelta.days, Timedelta.microseconds,
    USEC_PER_DAY, USEC_PER_SEC, timedeltaHMSms]
  omega

/-- Decoding inverts encoding on non-negative whole-millisecond
durations. -/
theorem decode_encode_timestamp (td : Timedelta) (h0 : 0 ≤ td.micro)
    (h1000 : td.micro % 1000 = 0) :
    srt_timestamp_to_timedelta (timedelta_to_srt_timestamp td) = .ok td := by
  obtain ⟨hh, hm, hs, hms⟩ := timedelta_fields_nonneg td h0
  rw [srt_timestamp_to_timedelta, splitOnPred_timestamp td h0]
  simp only [pyInt_pyFormatInt 2 hh, pyInt_pyFormatInt 2 hm, pyInt_pyFormatInt 2 hs,
    pyInt_pyFormatInt 3 hms]
  rw [timedeltaHMSms_fields td h1000]

theorem decodeTimestampOr_encode (td : Timedelta) (h0 : 0 ≤ td.micro)
    (h1000 : td.micro % 1000 = 0) :
    decodeTimestampOr (timedelta_to_srt_timestamp td) = td := by
  rw [decodeTimestampOr, decode_encode_timestamp td h0 h1000]

/-! ### Lemmas: sorting and reindexing -/

theorem startLe_iff (a b : Subtitle) :
    startLe a b = true ↔ a.start.micro ≤ b.start.micro := by
  simp only [startLe, pyLt, Bool.not_eq_true', decide_eq_false_iff_not]
  omega

theorem startLe_trans : ∀ a b c : Subtitle,
    startLe a b → startLe b c → startLe a c := by
  intro a b c hab hbc
  rw [startLe_iff] at *
  omega

theorem startLe_total : ∀ a b : Subtitle, startLe a b || startLe b a := by
  intro a b
  simp only [Bool.or_eq_true, startLe_iff]
  omega

theorem payload_start {x y : Subtitle} (h : x.payload = y.payload) :
    x.start = y.start := congrArg Prod.fst h

theorem payload_content {x y : Subtitle} (h : x.payload = y.payload) :
    x.content = y.content := by
  have := congrArg (fun p => p.2.2.1) h
  simpa [Subtitle.payload] using this

theorem mem_reindexFrom {l : List Subtitle} {n : Int} :
    ∀ y ∈ reindexFrom n l, ∃ x ∈ l, y.payload = x.payload ∧ contentless x = false := by
  induction l generalizing n with
  | nil => simp [reindexFrom]
  | cons s rest ih =>
    intro y hy
    rw [reindexFrom] at hy
    by_cases hc : contentless s = true
    · rw [if_pos hc] at hy
      obtain ⟨x, hx, hxy⟩ := ih y hy
      exact ⟨x, List.mem_cons_of_mem s hx, hxy⟩
    · rw [if_neg hc] at hy
      rcases List.mem_cons.mp hy with h | h
      · subst h
        exact ⟨s, List.mem_cons_self s rest, rfl, by simpa using hc⟩
      · obtain ⟨x, hx, hxy⟩ := ih y h
        exact ⟨x, List.mem_cons_of_mem s hx, hxy⟩

theorem reindexFrom_contentless {l : List Subtitle} {n : Int} :
    ∀ y ∈ reindexFrom n l, contentless y = false := by
  intro y hy
  obtain ⟨x, _, hpay, hx⟩ := mem_reindexFrom y hy
  have : y.content = x.content := payload_content hpay
  rw [contentless, this, ← contentless, hx]

theorem reindexFrom_pairwise {l : List Subtitle} {n : Int}
    (h : List.Pairwise (fun a b => a.start.micro ≤ b.start.micro) l) :
    List.Pairwise (fun a b => a.start.micro ≤ b.start.micro) (reindexFrom n l) := by
  induction l generalizing n with
  | nil => simp [reindexFrom]
  | cons s rest ih =>
    rw [List.pairwise_cons] at h
    rw [reindexFrom]
    by_cases hc : contentless s = true
    · rw [if_pos hc]
      exact ih h.2
    · rw [if_neg hc]
      rw [List.pairwise_cons]
      refine ⟨?_, ih h.2⟩
      intro y hy
      obtain ⟨x, hx, hpay, _⟩ := mem_reindexFrom y hy
      have hys : y.start = x.start := payload_start hpay
      have := h.1 x hx
      simp only [hys]
      exact this

theorem reindexFrom_filter_start (t : Int) :
    ∀ (l : List Subtitle) (n : Int),
    ((reindexFrom n l).filter (fun s => decide (s.start.micro = t))).map Subtitle.payload =
    (l.filter (fun s => !contentless s && decide (s.start.micro = t))).map Subtitle.payload := by
  intro l
  induction l with
  | nil => intro n; simp [reindexFrom]
  | cons s rest ih =>
    intro n
    rw [reindexFrom]
    by_cases hc : contentless s = true
    · rw [if_pos hc]
      simp only [List.filter_cons, hc]
      exact ih n
    · rw [if_neg hc]
      have hcf : contentless s = false := by simpa using hc
      have hhead : (⟨n, s.start, s.end_, s.content, s.proprietary⟩ : Subtitle).start
          = s.start := rfl
      by_cases ht : s.start.micro = t
      · have hdt : decide (s.start.micro = t) = true := decide_eq_true ht
        simp only [List.filter_cons, hhead, hcf, hdt, Bool.not_false,
          Bool.true_and, if_true, List.map_cons]
        exact congrArg (List.cons _) (ih (n + 1))
      · have hdf : decide (s.start.micro = t) = false := decide_eq_false ht
        simp only [List.filter_cons, hhead, hcf, hdf, Bool.not_false,
          Bool.true_and, Bool.and_false, if_false]
        exact ih (n + 1)

theorem reindexFrom_map_index :
    ∀ (l : List Subtitle) (n : Int),
    (reindexFrom n l).map Subtitle.index =
    (List.range (reindexFrom n l).length).map (fun k : Nat => n + (k : Int)) := by
  intro l
  induction l with
  | nil => intro n; simp [reindexFrom]
  | cons s rest ih =>
    intro n
    rw [reindexFrom]
    by_cases hc : contentless s = true
    · rw [if_pos hc]; exact ih n
    · rw [if_neg hc]
      simp only [List.length_cons, List.map_cons, List.range_succ_eq_map,
        List.map_map]
      refine congrArg₂ List.cons (by simp) ?_
      rw [ih (n + 1)]
      apply List.map_congr_left
      intro k hk
      simp only [Function.comp]
      push_cast
      ring

theorem reindexFrom_length_le : ∀ (l : List Subtitle) (n : Int),
    (reindexFrom n l).length ≤ l.length := by
  intro l
  induction l with
  | nil => intro n; simp [reindexFrom]
  | cons s rest ih =>
    intro n
    rw [reindexFrom]
    by_cases hc : contentless s = true
    · rw [if_pos hc]
      exact Nat.le_succ_of_le (ih n)
    · rw [if_neg hc]
      simpa using ih (n + 1)

theorem mergeSort_sorted_start (subs : List Subtitle) :
    List.Pairwise (fun a b => a.start.micro ≤ b.start.micro) (subs.mergeSort startLe) := by
  have h := List.sorted_mergeSort startLe_trans startLe_total subs
  exact h.imp (fun hab => (startLe_iff _ _).mp hab)

/-- Stability of the sort on any class of pairwise-tied elements: the
sorted list restricts to the same subsequence as the input. -/
theorem mergeSort_filter_eq (subs : List Subtitle) (q : Subtitle → Bool)
    (hq : ∀ a b, q a = true → q b = true → startLe a b = true) :
    (subs.mergeSort startLe).filter q = subs.filter q := by
  have hpair : (subs.filter q).Pairwise (fun a b => startLe a b = true) := by
    apply List.pairwise_of_forall_mem_list
    intro a ha b hb
    exact hq a b (List.of_mem_filter ha) (List.of_mem_filter hb)
  have hsub : List.Sublist (subs.filter q) (subs.mergeSort startLe) :=
    List.sublist_mergeSort startLe_trans startLe_total hpair (List.filter_sublist subs)
  have hsub2 : List.Sublist (subs.filter q) ((subs.mergeSort startLe).filter q) := by
    have h2 := hsub.filter q
    rwa [List.filter_eq_self.mpr (fun a ha => List.of_mem_filter ha)] at h2
  have hperm : List.Perm ((subs.mergeSort startLe).filter q) (subs.filter q) :=
    (List.mergeSort_perm subs startLe).filter q
  exact (hsub2.eq_of_length hperm.length_eq.symm).symm

/-- C5: sort_and_reindex stably sorts by start time (for each start
time, the surviving payloads keep their input order), drops every
subtitle whose content is whitespace-only, assigns consecutive indices
from start_index to the survivors, and never lengthens the list. -/
theorem sort_and_reindex_spec (subs : List Subtitle) (start_index : Int) :
    List.Pairwise (fun a b => a.start.micro ≤ b.start.micro)
      (sort_and_reindex subs start_index) ∧
    (∀ y ∈ sort_and_reindex subs start_index, contentless y = false) ∧
    (sort_and_reindex subs start_index).map Subtitle.index =
      (List.range (sort_and_reindex subs start_index).length).map
        (fun k : Nat => start_index + (k : Int)) ∧
    (∀ t : Int,
      ((sort_and_reindex subs start_index).filter
          (fun s => decide (s.start.micro = t))).map Subtitle.payload =
        (subs.filter
          (fun s => !contentless s && decide (s.start.micro = t))).map Subtitle.payload) ∧
    (sort_and_reindex subs start_index).length ≤ subs.length := by
  refine ⟨?_, ?_, ?_, ?_, ?_⟩
  · exact reindexFrom_pairwise (mergeSort_sorted_start subs)
  · exact fun y hy => reindexFrom_contentless y hy
  · exact reindexFrom_map_index _ _
  · intro t
    rw [sort_and_reindex, reindexFrom_filter_start t _ _,
      mergeSort_filter_eq subs _ ?_]
    intro a b ha hb
    rw [Bool.and_eq_true, decide_eq_true_eq] at ha hb
    rw [startLe_iff, ha.2, hb.2]
  · rw [sort_and_reindex]
    calc (reindexFrom start_index (subs.mergeSort startLe)).length
        ≤ (subs.mergeSort startLe).length := reindexFrom_length_le _ _
      _ = subs.length := List.length_mergeSort subs

/-- C6: Subtitle equality and hash depend on exactly the five fields,
and the comparison underlying the ordering is determined by the start
field alone: it is transitive, asymmetric, and any two subtitles are
comparable or share a start time. -/
theorem subtitle_eq_hash_order :
    (∀ a b : Subtitle, pyEq a b = true ↔
      a.index = b.index ∧ a.start = b.start ∧ a.end_ = b.end_ ∧
        a.content = b.content ∧ a.proprietary = b.proprietary) ∧
    (∀ a b : Subtitle, pyEq a b = true → pyHash a = pyHash b) ∧
    (∀ a b : Subtitle, pyLt a b = true ↔ a.start.micro < b.start.micro) ∧
    (∀ a b c : Subtitle, pyLt a b = true → pyLt b c = true → pyLt a c = true) ∧
    (∀ a b : Subtitle, ¬(pyLt a b = true ∧ pyLt b a = true)) ∧
    (∀ a b : Subtitle, pyLt a b = true ∨ pyLt b a = true ∨ a.start = b.start) := by
  refine ⟨?_, ?_, ?_, ?_, ?_, ?_⟩
  · intro a b
    simp [pyEq, Subtitle.vars, Prod.ext_iff]
  · intro a b h
    have hv : a.vars = b.vars := of_decide_eq_true h
    rw [pyHash, pyHash, hv]
  · intro a b
    simp [pyLt]
  · intro a b c h1 h2
    simp only [pyLt, decide_eq_true_eq] at h1 h2 ⊢
    omega
  · intro a b h
    obtain ⟨h1, h2⟩ := h
    simp only [pyLt, decide_eq_true_eq] at h1 h2
    omega
  · intro a b
    by_cases h1 : a.start.micro < b.start.micro
    · exact Or.inl (by simpa [pyLt] using h1)
    · by_cases h2 : b.start.micro < a.start.micro
      · exact Or.inr (Or.inl (by simpa [pyLt] using h2))
      · exact Or.inr (Or.inr (Timedelta.micro_inj (by omega)))

/-- C8: legalisation splits content on the literal newline, discards
empty lines, rejoins with newline (so exactly the non-empty lines
survive, in order), and is idempotent; the docstring example is
reproduced.  It is a total function: a change is never an error. -/
theorem make_legal_content_spec :
    (∀ x : Str, make_legal_content (make_legal_content x) = make_legal_content x) ∧
    (∀ x : Str,
      (splitOnPred (fun c => c = '\n') (make_legal_content x)).filter (fun l => !l.isEmpty) =
      (splitOnPred (fun c => c = '\n') x).filter (fun l => !l.isEmpty)) ∧
    make_legal_content "\nfoo\n\nbar\n".data = "foo\nbar".data :=
  ⟨make_legal_content_idem, make_legal_content_parts, by decide⟩

/-- C4: the encoder renders every duration as zero-padded fields
hours:minutes:seconds,milliseconds of widths 2,2,2,3, with hours =
days * 24 + hour-of-day, minutes and seconds from the remaining
seconds-in-day, and milliseconds the microsecond component divided by
1000 with truncation; the docstring example is reproduced. -/
theorem timedelta_to_srt_timestamp_spec :
    (∀ td : Timedelta,
      timedelta_to_srt_timestamp td =
        pyFormatInt 2 (td.days * 24 + td.seconds / 3600) ++
          (':' :: (pyFormatInt 2 (td.seconds % 3600 / 60) ++
            (':' :: (pyFormatInt 2 (td.seconds % 60) ++
              (',' :: pyFormatInt 3 (td.microseconds / 1000))))))) ∧
    timedelta_to_srt_timestamp (timedeltaHMSms 1 23 4 0) = "01:23:04,000".data := by
  constructor
  · intro td
    rw [timedelta_to_srt_timestamp_eq, Int.add_comm (td.seconds / 3600) (td.days * 24),
      Int.emod_emod_of_dvd td.seconds (by norm_num : (60 : Int) ∣ 3600)]
  · decide

/-- C10: decoding inverts encoding on every non-negative duration that
is a whole number of milliseconds. -/
theorem timestamp_codec_roundtrip (td : Timedelta) (h0 : 0 ≤ td.micro)
    (h1000 : td.micro % 1000 = 0) :
    srt_timestamp_to_timedelta (timedelta_to_srt_timestamp td) = .ok td :=
  decode_encode_timestamp td h0 h1000

theorem timestamp_codec_roundtrip_witness :
    srt_timestamp_to_timedelta (timedelta_to_srt_timestamp ⟨3723400000⟩) =
      .ok ⟨3723400000⟩ :=
  timestamp_codec_roundtrip ⟨3723400000⟩ (by decide) (by decide)

/-- C3: the decoder splits on any of comma, colon, dot; a field count
other than four fails with a TimestampFormatError; a non-numeric field
fails with a TimestampFormatError; and the separator before the
milliseconds does not affect the result. -/
theorem srt_timestamp_to_timedelta_errors :
    (∀ s : Str, (splitOnPred isTsSep s).length ≠ 4 →
      ∃ e, srt_timestamp_to_timedelta s = .error e) ∧
    (∀ s : Str, (∃ f ∈ splitOnPred isTsSep s, pyInt f = none) →
      ∃ e, srt_timestamp_to_timedelta s = .error e) ∧
    srt_timestamp_to_timedelta "01:02:03.400".data =
      srt_timestamp_to_timedelta "01:02:03,400".data := by
  refine ⟨?_, ?_, by rfl⟩
  · intro s h
    unfold srt_timestamp_to_timedelta
    split
    · rename_i a b c d heq
      rw [heq] at h
      simp at h
    · exact ⟨⟨s⟩, rfl⟩
  · intro s hex
    obtain ⟨f, hf, hnone⟩ := hex
    unfold srt_timestamp_to_timedelta
    split
    · rename_i a b c d heq
      rw [heq] at hf
      rcases ha : pyInt a with _ | va
      · exact ⟨⟨s⟩, rfl⟩
      rcases hb : pyInt b with _ | vb
      · exact ⟨⟨s⟩, rfl⟩
      rcases hc : pyInt c with _ | vc
      · exact ⟨⟨s⟩, rfl⟩
      rcases hd : pyInt d with _ | vd
      · exact ⟨⟨s⟩, rfl⟩
      exfalso
      simp only [List.mem_cons, List.not_mem_nil, or_false] at hf
      rcases hf with rfl | rfl | rfl | rfl
      · rw [hnone] at ha; exact Option.noConfusion ha
      · rw [hnone] at hb; exact Option.noConfusion hb
      · rw [hnone] at hc; exact Option.noConfusion hc
      · rw [hnone] at hd; exact Option.noConfusion hd
    · exact ⟨⟨s⟩, rfl⟩

theorem srt_timestamp_to_timedelta_errors_witness :
    (∃ e, srt_timestamp_to_timedelta "1:2".data = .error e) ∧
    (∃ e, srt_timestamp_to_timedelta "aa:bb:cc,dd".data = .error e) :=
  ⟨srt_timestamp_to_timedelta_errors.1 "1:2".data (by decide),
   srt_timestamp_to_timedelta_errors.2.1 "aa:bb:cc,dd".data
     ⟨"aa".data, by decide, by decide⟩⟩

theorem subtitle_eq_hash_order_witness :
    pyHash ⟨1, ⟨0⟩, ⟨0⟩, ['x'], []⟩ = pyHash ⟨1, ⟨0⟩, ⟨0⟩, ['x'], []⟩ ∧
    pyLt ⟨1, ⟨0⟩, ⟨0⟩, ['x'], []⟩ ⟨3, ⟨9⟩, ⟨0⟩, ['z'], []⟩ = true :=
  ⟨subtitle_eq_hash_order.2.1 ⟨1, ⟨0⟩, ⟨0⟩, ['x'], []⟩ ⟨1, ⟨0⟩, ⟨0⟩, ['x'], []⟩ (by decide),
   subtitle_eq_hash_order.2.2.2.1 ⟨1, ⟨0⟩, ⟨0⟩, ['x'], []⟩ ⟨2, ⟨5⟩, ⟨0⟩, ['y'], []⟩
     ⟨3, ⟨9⟩, ⟨0⟩, ['z'], []⟩ (by decide) (by decide)⟩

/-! ### Lemmas: the tokenizer on rendered blocks -/

theorem head_cons_not_digit {a : Char} (ha : a.isDigit = false) (x : Str) :
    ∀ c, ((a :: x).head? = some c) → c.isDigit = false := by
  intro c h
  rw [List.head?_cons, Option.some.injEq] at h
  subst h
  exact ha

theorem head_nil_not_digit : ∀ c, (([] : Str).head? = some c) → c.isDigit = false := by
  intro c h
  simp at h

theorem takeWhile_all_append {p : Char → Bool} {d r : Str} (hd : ∀ c ∈ d, p c = true)
    (hr : ∀ c, r.head? = some c → p c = false) :
    (d ++ r).takeWhile p = d ∧ (d ++ r).dropWhile p = r := by
  induction d with
  | nil =>
    simp only [List.nil_append]
    cases r with
    | nil => exact ⟨rfl, rfl⟩
    | cons a t =>
      have ha : p a = false := hr a rfl
      rw [List.takeWhile_cons, List.dropWhile_cons, if_neg (by simp [ha]),
        if_neg (by simp [ha])]
      exact ⟨rfl, rfl⟩
  | cons c d ih =>
    have hc : p c = true := hd c (List.mem_cons_self c d)
    obtain ⟨h1, h2⟩ := ih (fun x hx => hd x (List.mem_cons_of_mem c hx))
    rw [List.cons_append, List.takeWhile_cons, List.dropWhile_cons,
      if_pos (by simp [hc]), if_pos (by simp [hc]), h1, h2]
    exact ⟨rfl, rfl⟩

theorem matchNum_append {d r : Str} (hne : d ≠ []) (hd : d.all Char.isDigit = true)
    (hr : ∀ c, r.head? = some c → c.isDigit = false) :
    matchNum (d ++ r) = some (d, r) := by
  obtain ⟨h1, h2⟩ := takeWhile_all_append (List.all_eq_true.mp hd) hr
  rw [matchNum]
  simp only [h1, h2]
  rw [if_neg (by simpa using hne)]

theorem matchNum_spec {s d r : Str} (h : matchNum s = some (d, r)) :
    s = d ++ r ∧ d ≠ [] ∧ d.all Char.isDigit = true ∧
      (∀ c, r.head? = some c → c.isDigit = false) := by
  rw [matchNum] at h
  by_cases he : (s.takeWhile Char.isDigit).isEmpty = true
  · rw [if_pos he] at h
    exact absurd h (by simp)
  · rw [if_neg he, Option.some.injEq, Prod.mk.injEq] at h
    obtain ⟨h1, h2⟩ := h
    subst h1
    subst h2
    refine ⟨(List.takeWhile_append_dropWhile Char.isDigit s).symm, by simpa using he, ?_, ?_⟩
    · exact List.all_eq_true.mpr (fun c hc => List.mem_takeWhile_imp hc)
    · intro c hc
      have := List.head?_dropWhile_not Char.isDigit s
      rw [hc] at this
      exact this

theorem matchNum_rest_lt {s d r : Str} (h : matchNum s = some (d, r)) :
    r.length < s.length := by
  obtain ⟨h1, h2, _, _⟩ := matchNum_spec h
  subst h1
  rcases d with _ | ⟨c, d⟩
  · exact absurd rfl h2
  · simp [List.length_append]
    omega

theorem matchTimestamp_encode (td : Timedelta) (h0 : 0 ≤ td.micro) (r : Str)
    (hr : ∀ c, r.head? = some c → c.isDigit = false) :
    matchTimestamp (timedelta_to_srt_timestamp td ++ r) =
      some (timedelta_to_srt_timestamp td, r) := by
  obtain ⟨hh, hm, hs, hms⟩ := timedelta_fields_nonneg td h0
  rw [timedelta_to_srt_timestamp_eq]
  have colonD : (':' : Char).isDigit = false := by decide
  have commaD : (',' : Char).isDigit = false := by decide
  simp only [List.append_assoc, List.cons_append]
  rw [matchTimestamp]
  rw [matchNum_append (pyFormatInt_ne_nil 2 hh) (pyFormatInt_all 2 hh)
    (head_cons_not_digit colonD _)]
  simp only []
  rw [matchNum_append (pyFormatInt_ne_nil 2 hm) (pyFormatInt_all 2 hm)
    (head_cons_not_digit colonD _)]
  simp only []
  rw [matchNum_append (pyFormatInt_ne_nil 2 hs) (pyFormatInt_all 2 hs)
    (head_cons_not_digit commaD _)]
  simp only []
  rw [if_pos (Or.inl trivial)]
  rw [matchNum_append (pyFormatInt_ne_nil 3 hms) (pyFormatInt_all 3 hms) hr]
  simp [List.append_assoc]

/-! ### Lemmas: the lazy content scan on legal content -/

theorem scanContent_line {y : Str} :
    ∀ l : Str, (∀ ch ∈ l, ch ≠ '\n') →
    scanContent (l ++ y) = (l ++ (scanContent y).1, (scanContent y).2.1, (scanContent y).2.2) := by
  intro l
  induction l with
  | nil => intro _; simp
  | cons c t ih =>
    intro h
    have hc : c ≠ '\n' := h c (List.mem_cons_self c t)
    have hb : tryBoundary (c :: (t ++ y)) = none := by
      simp only [tryBoundary, if_neg hc]
    rw [List.cons_append, scanContent, hb]
    rw [ih (fun ch hch => h ch (List.mem_cons_of_mem c hch))]
    rfl

theorem scanContent_nl_step {z : Str} (hz : ∃ d v, z = d :: v ∧ d ≠ '\n') :
    scanContent ('\n' :: z) =
      ('\n' :: (scanContent z).1, (scanContent z).2.1, (scanContent z).2.2) := by
  obtain ⟨d, v, rfl, hd⟩ := hz
  have hb : tryBoundary ('\n' :: d :: v) = none := by
    simp [tryBoundary, hd]
  rw [scanContent, hb]

theorem scanContent_boundary {rest : Str} (h : nextBlockAhead rest = true) :
    scanContent ('\n' :: '\n' :: rest) = ([], 2, rest) := by
  have hb : tryBoundary ('\n' :: '\n' :: rest) =
      if nextBlockAhead rest then some (2, rest) else none := rfl
  rw [scanContent, hb, if_pos h]

theorem joinSep_head_ne_nl {lines : List Str} {f : Str} {rest : List Str}
    (h : lines = f :: rest) (hf : f ≠ []) (hfree : ∀ ch ∈ f, ch ≠ '\n') :
    ∃ d v, joinSep '\n' lines = d :: v ∧ d ≠ '\n' := by
  subst h
  rcases f with _ | ⟨c, t⟩
  · exact absurd rfl hf
  · cases rest with
    | nil => exact ⟨c, t, rfl, hfree c (List.mem_cons_self c t)⟩
    | cons g more =>
      rw [joinSep_cons_cons]
      exact ⟨c, t ++ '\n' :: joinSep '\n' (g :: more), rfl,
        hfree c (List.mem_cons_self c t)⟩

theorem scanContent_join {rest : Str} (hrest : nextBlockAhead rest = true) :
    ∀ lines : List Str, lines ≠ [] →
    (∀ l ∈ lines, l ≠ []) → (∀ l ∈ lines, ∀ ch ∈ l, ch ≠ '\n') →
    scanContent (joinSep '\n' lines ++ '\n' :: '\n' :: rest) =
      (joinSep '\n' lines, 2, rest) := by
  intro lines
  induction lines with
  | nil => intro h; exact absurd rfl h
  | cons f rst ih =>
    intro _ hne hfree
    cases rst with
    | nil =>
      have h1 : joinSep '\n' [f] = f := rfl
      rw [h1, scanContent_line f (hfree f (List.mem_cons_self f [])),
        scanContent_boundary hrest]
      simp
    | cons g more =>
      rw [joinSep_cons_cons]
      have hx : ∃ d v, joinSep '\n' (g :: more) ++ '\n' :: '\n' :: rest = d :: v ∧ d ≠ '\n' := by
        obtain ⟨d, v, hdv, hd⟩ := joinSep_head_ne_nl rfl
          (hne g (List.mem_cons_of_mem f (List.mem_cons_self g more)))
          (hfree g (List.mem_cons_of_mem f (List.mem_cons_self g more)))
        exact ⟨d, v ++ '\n' :: '\n' :: rest, by rw [hdv, List.cons_append], hd⟩
      have hrec := ih (by simp) (fun l hl => hne l (List.mem_cons_of_mem f hl))
        (fun l hl => hfree l (List.mem_cons_of_mem f hl))
      rw [List.append_assoc, List.cons_append,
        scanContent_line f (hfree f (List.mem_cons_self f _)),
        scanContent_nl_step hx, hrec]

theorem mem_of_mem_splitOnPred (p : Char → Bool) :
    ∀ (s : Str), ∀ l ∈ splitOnPred p s, ∀ ch ∈ l, ch ∈ s := by
  intro s
  induction s with
  | nil => simp [splitOnPred]
  | cons c t ih =>
    intro l hl ch hch
    simp only [splitOnPred] at hl
    by_cases hc : p c = true
    · rw [if_pos hc] at hl
      rcases List.mem_cons.mp hl with h | h
      · subst h; exact absurd hch (List.not_mem_nil ch)
      · exact List.mem_cons_of_mem c (ih l h ch hch)
    · rw [if_neg hc] at hl
      rcases hrr : splitOnPred p t with _ | ⟨f, rst⟩
      · exact absurd hrr (splitOnPred_ne_nil p t)
      rw [hrr] at hl
      simp only [List.headD_cons, List.tail_cons] at hl
      rcases List.mem_cons.mp hl with h | h
      · subst h
        rcases List.mem_cons.mp hch with h2 | h2
        · subst h2; exact List.mem_cons_self ch t
        · exact List.mem_cons_of_mem c
            (ih f (by rw [hrr]; exact List.mem_cons_self f rst) ch h2)
      · exact List.mem_cons_of_mem c
          (ih l (by rw [hrr]; exact List.mem_cons_of_mem f h) ch hch)

theorem goodSub_spec {s : Subtitle} (h : goodSub s = true) :
    0 ≤ s.index ∧ 0 ≤ s.start.micro ∧ s.start.micro % 1000 = 0 ∧
    0 ≤ s.end_.micro ∧ s.end_.micro % 1000 = 0 ∧
    goodContent s.content = true ∧
    s.proprietary.all (fun ch => ch ≠ '\n') = true := by
  simp only [goodSub, Bool.and_eq_true, decide_eq_true_eq] at h
  exact ⟨h.1.1.1.1.1.1, h.1.1.1.1.1.2, h.1.1.1.1.2, h.1.1.1.2, h.1.1.2, h.1.2, h.2⟩

theorem goodContent_lines {c : Str} (h : goodContent c = true) :
    (∀ l ∈ splitOnPred (fun ch => ch = '\n') c, l ≠ []) ∧
    (∀ l ∈ splitOnPred (fun ch => ch = '\n') c, ∀ ch ∈ l, ch ≠ '\n') := by
  constructor
  · intro l hl
    have := List.all_eq_true.mp h l hl
    rcases l with _ | ⟨a, t⟩
    · simp at this
    · simp
  · intro l hl ch hch
    have := mem_splitOnPred_sepfree _ c l hl ch hch
    simpa using this

theorem make_legal_content_of_good {c : Str} (h : goodContent c = true) :
    make_legal_content c = c := by
  obtain ⟨hne, _⟩ := goodContent_lines h
  rw [make_legal_content, List.filter_eq_self.mpr
    (fun l hl => by simpa using hne l hl)]
  exact joinSep_splitOnPred (fun ch hc => of_decide_eq_true hc) c

theorem contentless_false_of_good {s : Subtitle} (h : goodContent s.content = true) :
    contentless s = false := by
  rcases hsp : splitOnPred (fun ch => ch = '\n') s.content with _ | ⟨f, rst⟩
  · exact absurd hsp (splitOnPred_ne_nil _ _)
  have hf : f.any (fun ch => !isPySpace ch) = true := by
    have := List.all_eq_true.mp h f (by rw [hsp]; exact List.mem_cons_self f rst)
    exact this
  obtain ⟨ch, hch, hns⟩ := List.any_eq_true.mp hf
  have hmem : ch ∈ s.content :=
    mem_of_mem_splitOnPred _ s.content f
      (by rw [hsp]; exact List.mem_cons_self f rst) ch hch
  rw [contentless]
  rw [Bool.eq_false_iff]
  intro hall
  have := List.all_eq_true.mp hall ch hmem
  rw [this] at hns
  simp at hns

theorem scanContent_good {c : Str} (h : goodContent c = true) {rest : Str}
    (hrest : nextBlockAhead rest = true) :
    scanContent (c ++ '\n' :: '\n' :: rest) = (c, 2, rest) := by
  obtain ⟨hne, hfree⟩ := goodContent_lines h
  have hjoin : joinSep '\n' (splitOnPred (fun ch => ch = '\n') c) = c :=
    joinSep_splitOnPred (fun ch hc => of_decide_eq_true hc) c
  have := scanContent_join hrest (splitOnPred (fun ch => ch = '\n') c)
    (splitOnPred_ne_nil _ _) hne hfree
  rwa [hjoin] at this

/-! ### Lemmas: whole blocks on rendered subtitles -/

theorem to_srt_eq_of_good (s : Subtitle) (h : goodContent s.content = true) :
    s.to_srt true =
      pyFormatInt 1 s.index ++
        ('\n' :: (timedelta_to_srt_timestamp s.start ++
          (' ' :: '-' :: '-' :: '>' :: ' ' :: (timedelta_to_srt_timestamp s.end_ ++
            ((if s.proprietary.isEmpty then s.proprietary else ' ' :: s.proprietary) ++
              ('\n' :: (s.content ++ ['\n', '\n']))))))) := by
  have h1 : s.to_srt true =
      pyFormatInt 1 s.index ++
        ('\n' :: (timedelta_to_srt_timestamp s.start ++
          (' ' :: '-' :: '-' :: '>' :: ' ' :: (timedelta_to_srt_timestamp s.end_ ++
            ((if s.proprietary.isEmpty then s.proprietary else ' ' :: s.proprietary) ++
              ('\n' :: (make_legal_content s.content ++ ['\n', '\n'])))))))  := rfl
  rw [h1, make_legal_content_of_good h]

theorem matchHeader_render (s : Subtitle) (h : goodSub s = true) (rest : Str) :
    matchHeader (s.to_srt true ++ rest) =
      some (pyFormatInt 1 s.index, timedelta_to_srt_timestamp s.start,
        timedelta_to_srt_timestamp s.end_, s.proprietary,
        s.content ++ '\n' :: '\n' :: rest) := by
  obtain ⟨hidx, hs0, -, he0, -, hgc, hprop⟩ := goodSub_spec h
  rw [to_srt_eq_of_good s hgc]
  simp only [List.append_assoc, List.cons_append, List.nil_append]
  rw [matchHeader]
  rw [matchNum_append (pyFormatInt_ne_nil 1 hidx) (pyFormatInt_all 1 hidx)
    (head_cons_not_digit (by decide) _)]
  simp only []
  rw [matchTimestamp_encode s.start hs0 _ (head_cons_not_digit (by decide) _)]
  simp only []
  rcases hp : s.proprietary with _ | ⟨p0, pr⟩
  · rw [hp] at hprop
    simp only [List.isEmpty_nil, if_true, List.nil_append]
    rw [matchTimestamp_encode s.end_ he0 _ (head_cons_not_digit (by decide) _)]
    simp only [List.takeWhile_cons, List.dropWhile_cons]
    simp
  · rw [hp] at hprop
    simp only [List.isEmpty_cons, Bool.false_eq_true, if_false, List.cons_append]
    rw [matchTimestamp_encode s.end_ he0 _ (head_cons_not_digit (by decide) _)]
    simp only []
    have hpr : ∀ ch ∈ p0 :: pr, (fun c => decide (c ≠ '\n')) ch = true := by
      intro ch hch
      simpa using List.all_eq_true.mp hprop ch hch
    have hhead : ∀ c, (('\n' :: (s.content ++ '\n' :: '\n' :: rest)).head? = some c) →
        (fun c => decide (c ≠ '\n')) c = false := by
      intro c hc
      rw [List.head?_cons, Option.some.injEq] at hc
      subst hc
      simp
    obtain ⟨htw, hdw⟩ := takeWhile_all_append hpr hhead
    have htw2 : List.takeWhile (fun c => decide (c ≠ '\n'))
        (p0 :: (pr ++ '\n' :: (s.content ++ '\n' :: '\n' :: rest))) = p0 :: pr := htw
    have hdw2 : List.dropWhile (fun c => decide (c ≠ '\n'))
        (p0 :: (pr ++ '\n' :: (s.content ++ '\n' :: '\n' :: rest))) =
        '\n' :: (s.content ++ '\n' :: '\n' :: rest) := hdw
    simp only [if_true, and_self, List.head?_cons, List.tail_cons, Option.some.injEq]
    rw [htw2, hdw2]
    simp

/-! ### Lemmas: every match consumes input -/

theorem matchTimestamp_rest_lt {s ts r : Str} (h : matchTimestamp s = some (ts, r)) :
    r.length < s.length := by
  rw [matchTimestamp] at h
  split at h
  · simp at h
  · rename_i d1 r1 h1
    split at h
    · simp at h
    · rename_i c1 r2
      split at h
      · split at h
        · simp at h
        · rename_i d2 r3 h2
          split at h
          · simp at h
          · rename_i c2 r4
            split at h
            · split at h
              · simp at h
              · rename_i d3 r5 h3
                split at h
                · simp at h
                · rename_i c r6
                  split at h
                  · split at h
                    · simp at h
                    · rename_i d4 r7 h4
                      rw [Option.some.injEq, Prod.mk.injEq] at h
                      obtain ⟨-, h5⟩ := h
                      subst h5
                      have l1 := matchNum_rest_lt h1
                      have l2 := matchNum_rest_lt h2
                      have l3 := matchNum_rest_lt h3
                      have l4 := matchNum_rest_lt h4
                      simp only [List.length_cons] at l1 l2 l3
                      omega
                  · simp at h
            · simp at h
      · simp at h

theorem after_dropWhile_lt {p : Char → Bool} {x c7r : Str} {c7 : Char}
    (h : x.dropWhile p = c7 :: c7r) : c7r.length < x.length := by
  have h1 : (x.dropWhile p).length ≤ x.length := (List.dropWhile_sublist p).length_le
  rw [h] at h1
  simp only [List.length_cons] at h1
  omega

theorem matchHeader_rest_lt {s : Str} {idx ts1 ts2 prop tail : Str}
    (h : matchHeader s = some (idx, ts1, ts2, prop, tail)) :
    tail.length < s.length := by
  rw [matchHeader] at h
  split at h
  · simp at h
  · rename_i d1 r1 h1
    split at h
    · simp at h
    · rename_i c1 r2
      split at h
      · split at h
        · simp at h
        · rename_i tsa r3 h2
          split at h
          · rename_i a1 a2 a3 a4 a5 r4
            split at h
            · split at h
              · simp at h
              · rename_i tsb r5 h3
                have l1 := matchNum_rest_lt h1
                have l2 := matchTimestamp_rest_lt h2
                have l3 := matchTimestamp_rest_lt h3
                simp only [List.length_cons] at l1 l2 l3
                split at h
                · -- a leading space is consumed before the proprietary text
                  dsimp only at h
                  split at h
                  · simp at h
                  · rename_i c7 r7 h4
                    split at h
                    · simp only [Option.some.injEq, Prod.mk.injEq] at h
                      obtain ⟨-, -, -, -, h5⟩ := h
                      subst h5
                      have l4 := after_dropWhile_lt h4
                      have l5 : r5.tail.length ≤ r5.length := by simp
                      omega
                    · simp at h
                · dsimp only at h
                  split at h
                  · simp at h
                  · rename_i c7 r7 h4
                    split at h
                    · simp only [Option.some.injEq, Prod.mk.injEq] at h
                      obtain ⟨-, -, -, -, h5⟩ := h
                      subst h5
                      have l4 := after_dropWhile_lt h4
                      omega
                    · simp at h
            · simp at h
          · simp at h
      · simp at h

theorem tryBoundary_rest_le {u v : Str} {n : Nat} (h : tryBoundary u = some (n, v)) :
    v.length ≤ u.length := by
  rw [tryBoundary.eq_def] at h
  split at h
  · rw [Option.some.injEq, Prod.mk.injEq] at h
    obtain ⟨-, h2⟩ := h
    subst h2
    exact le_refl _
  · rename_i c t
    split at h
    · split at h
      · rw [Option.some.injEq, Prod.mk.injEq] at h
        obtain ⟨-, h2⟩ := h
        subst h2
        simp
      · rename_i d w
        split at h
        · split at h
          · rw [Option.some.injEq, Prod.mk.injEq] at h
            obtain ⟨-, h2⟩ := h
            subst h2
            simp
            omega
          · simp at h
        · simp at h
    · simp at h

theorem scanContent_rest_le : ∀ t : Str, (scanContent t).2.2.length ≤ t.length := by
  intro t
  induction t with
  | nil => simp [scanContent]
  | cons c t ih =>
    rw [scanContent]
    rcases hb : tryBoundary (c :: t) with _ | ⟨n, v⟩
    · simp only []
      calc (scanContent t).2.2.length ≤ t.length := ih
        _ ≤ (c :: t).length := by simp
    · simp only []
      exact tryBoundary_rest_le hb

theorem matchBlock_rest_lt {s : Str} {b : RawBlock} {rest : Str}
    (h : matchBlock s = some (b, rest)) : rest.length < s.length := by
  rw [matchBlock] at h
  split at h
  · rename_i idx ts1 ts2 prop tail heq
    rw [Option.some.injEq, Prod.mk.injEq] at h
    obtain ⟨-, h2⟩ := h
    subst h2
    calc (scanContent tail).2.2.length ≤ tail.length := scanContent_rest_le tail
      _ < s.length := matchHeader_rest_lt heq
  · simp at h

/-! ### Lemmas: finditer -/

theorem findFromF_congr : ∀ (fuel1 fuel2 : Nat) (s : Str) (pos : Nat),
    s.length < fuel1 → s.length < fuel2 →
    findFromF fuel1 s pos = findFromF fuel2 s pos := by
  intro fuel1
  induction fuel1 with
  | zero => intro fuel2 s pos h1 _; omega
  | succ f ih =>
    intro fuel2 s pos h1 h2
    rcases fuel2 with _ | g
    · omega
    simp only [findFromF]
    rcases hm : matchBlock s with _ | ⟨b, rest⟩
    · rcases s with _ | ⟨c, t⟩
      · rfl
      · simp only []
        simp only [List.length_cons] at h1 h2
        exact ih g t (pos + 1) (by omega) (by omega)
    · simp only []
      have hlt := matchBlock_rest_lt hm
      rw [ih g rest (pos + (s.length - rest.length)) (by omega) (by omega)]

theorem renderList_nil : renderList [] = [] := rfl

theorem renderList_cons (s : Subtitle) (subs : List Subtitle) :
    renderList (s :: subs) = s.to_srt true ++ renderList subs := by
  simp [renderList]

theorem to_srt_unfold (s : Subtitle) (strict : Bool) :
    s.to_srt strict =
      pyFormatInt 1 s.index ++
        ('\n' :: (timedelta_to_srt_timestamp s.start ++
          (' ' :: '-' :: '-' :: '>' :: ' ' :: (timedelta_to_srt_timestamp s.end_ ++
            ((if s.proprietary.isEmpty then s.proprietary else ' ' :: s.proprietary) ++
              ('\n' :: ((if strict then make_legal_content s.content else s.content) ++
                ['\n', '\n']))))))) := rfl

theorem pyFormatInt_ne_nil_any (w : Nat) (n : Int) : pyFormatInt w n ≠ [] := by
  rw [pyFormatInt]
  split
  · simp
  · exact padZeros_ne_nil w (natToDigits_ne_nil _)

theorem to_srt_length_pos (s : Subtitle) (strict : Bool) :
    0 < (s.to_srt strict).length := by
  rw [to_srt_unfold]
  rcases hf : pyFormatInt 1 s.index with _ | ⟨c, cs⟩
  · exact absurd hf (pyFormatInt_ne_nil_any 1 s.index)
  · simp

theorem nextBlockAhead_digits {d1 d2 : Str} (h1 : d1 ≠ []) (ha1 : d1.all Char.isDigit = true)
    (h2 : d2 ≠ []) (ha2 : d2.all Char.isDigit = true) (x : Str) :
    nextBlockAhead (d1 ++ '\n' :: (d2 ++ ':' :: x)) = true := by
  have e2 : matchNum (d2 ++ ':' :: x) = some (d2, ':' :: x) :=
    matchNum_append h2 ha2 (head_cons_not_digit (by decide) _)
  rcases d1 with _ | ⟨c, cs⟩
  · exact absurd rfl h1
  have e1 : matchNum ((c :: cs) ++ '\n' :: (d2 ++ ':' :: x)) =
      some (c :: cs, '\n' :: (d2 ++ ':' :: x)) :=
    matchNum_append h1 ha1 (head_cons_not_digit (by decide) _)
  simp only [List.cons_append] at e1 ⊢
  simp only [nextBlockAhead]
  rw [e1]
  simp [e2]

theorem nextBlockAhead_renderList (subs : List Subtitle)
    (h : ∀ s ∈ subs, goodSub s = true) :
    nextBlockAhead (renderList subs) = true := by
  rcases subs with _ | ⟨s, rest⟩
  · rfl
  · have hs := h s (List.mem_cons_self s rest)
    obtain ⟨hidx, hs0, -, -, -, hgc, -⟩ := goodSub_spec hs
    rw [renderList_cons, to_srt_eq_of_good s hgc, timedelta_to_srt_timestamp_eq s.start]
    simp only [List.append_assoc, List.cons_append]
    exact nextBlockAhead_digits (pyFormatInt_ne_nil 1 hidx) (pyFormatInt_all 1 hidx)
      (pyFormatInt_ne_nil 2 (timedelta_fields_nonneg s.start hs0).1)
      (pyFormatInt_all 2 (timedelta_fields_nonneg s.start hs0).1) _

theorem matchBlock_render (s : Subtitle) (h : goodSub s = true) {rest : Str}
    (hrest : nextBlockAhead rest = true) :
    matchBlock (s.to_srt true ++ rest) = some (rawOfSub s, rest) := by
  obtain ⟨-, -, -, -, -, hgc, -⟩ := goodSub_spec h
  rw [matchBlock, matchHeader_render s h rest]
  dsimp only
  rw [scanContent_good hgc hrest]
  rfl

theorem matchBlock_renderList (s : Subtitle) (subs : List Subtitle)
    (hs : goodSub s = true) (hsubs : ∀ x ∈ subs, goodSub x = true) :
    matchBlock (renderList (s :: subs)) = some (rawOfSub s, renderList subs) := by
  rw [renderList_cons]
  exact matchBlock_render s hs (nextBlockAhead_renderList subs hsubs)

theorem findFromF_render : ∀ (subs : List Subtitle) (fuel pos : Nat),
    (∀ x ∈ subs, goodSub x = true) → (renderList subs).length < fuel →
    findFromF fuel (renderList subs) pos = spansFrom subs pos := by
  intro subs
  induction subs with
  | nil =>
    intro fuel pos _ hf
    rcases fuel with _ | f
    · omega
    rw [renderList_nil]
    rfl
  | cons s rest ih =>
    intro fuel pos h hf
    rcases fuel with _ | f
    · omega
    have hlen : (renderList (s :: rest)).length - (renderList rest).length
        = (s.to_srt true).length := by
      rw [renderList_cons]; simp
    have hrl : (renderList (s :: rest)).length
        = (s.to_srt true).length + (renderList rest).length := by
      rw [renderList_cons]; simp
    have hpos : 0 < (s.to_srt true).length := to_srt_length_pos s true
    simp only [findFromF]
    rw [matchBlock_renderList s rest (h s (List.mem_cons_self s rest))
      (fun x hx => h x (List.mem_cons_of_mem s hx))]
    dsimp only
    rw [hlen]
    simp only [spansFrom]
    rw [ih f (pos + (s.to_srt true).length)
      (fun x hx => h x (List.mem_cons_of_mem s hx)) (by omega)]

theorem findAllMatches_render (subs : List Subtitle)
    (h : ∀ x ∈ subs, goodSub x = true) :
    findAllMatches (renderList subs) = spansFrom subs 0 :=
  findFromF_render subs ((renderList subs).length + 1) 0 h (by omega)

theorem rawToSubtitle_rawOfSub (s : Subtitle) (h : goodSub s = true) :
    rawToSubtitle (rawOfSub s) = s := by
  obtain ⟨hidx, hs0, hs1000, he0, he1000, -, -⟩ := goodSub_spec h
  have hdix : (digitsToNat (pyFormatInt 1 s.index) : Int) = s.index := by
    rw [pyFormatInt_nonneg 1 hidx, digitsToNat_padZeros, digitsToNat_natToDigits]
    omega
  rw [rawToSubtitle, rawOfSub]
  dsimp only
  rw [hdix, decodeTimestampOr_encode s.start hs0 hs1000,
    decodeTimestampOr_encode s.end_ he0 he1000]

theorem checkContiguous_spansFrom (s : Str) : ∀ (subs : List Subtitle) (pos : Nat),
    (∀ x ∈ subs, goodSub x = true) →
    pos + (renderList subs).length = s.length →
    checkContiguous s pos (spansFrom subs pos) = .ok subs := by
  intro subs
  induction subs with
  | nil =>
    intro pos _ hp
    simp only [spansFrom, checkContiguous]
    rw [if_pos (by rw [renderList_nil] at hp; simpa using hp)]
  | cons x rest ih =>
    intro pos h hp
    have hrl : (renderList (x :: rest)).length
        = (x.to_srt true).length + (renderList rest).length := by
      rw [renderList_cons]; simp
    simp only [spansFrom, checkContiguous]
    rw [if_pos trivial]
    rw [ih (pos + (x.to_srt true).length)
      (fun y hy => h y (List.mem_cons_of_mem x hy)) (by omega)]
    dsimp only
    rw [rawToSubtitle_rawOfSub x (h x (List.mem_cons_self x rest))]

theorem parse_renderList (subs : List Subtitle)
    (h : ∀ x ∈ subs, goodSub x = true) :
    parse (renderList subs) = .ok subs := by
  rw [parse, findAllMatches_render subs h]
  exact checkContiguous_spansFrom (renderList subs) subs 0 h (by omega)

/-! ### Lemmas: compose on canonical lists -/

theorem reindexFrom_id : ∀ (subs : List Subtitle) (n : Int),
    (∀ x ∈ subs, contentless x = false) →
    subs.map Subtitle.index = (List.range subs.length).map (fun k : Nat => n + (k : Int)) →
    reindexFrom n subs = subs := by
  intro subs
  induction subs with
  | nil => intro n _ _; rfl
  | cons s rest ih =>
    intro n hc hidx
    rw [reindexFrom, if_neg (by rw [hc s (List.mem_cons_self s rest)]; simp)]
    simp only [List.length_cons, List.range_succ_eq_map, List.map_cons,
      List.map_map] at hidx
    rw [List.cons.injEq] at hidx
    obtain ⟨h1, h2⟩ := hidx
    have hs : (⟨n, s.start, s.end_, s.content, s.proprietary⟩ : Subtitle) = s := by
      have hn : s.index = n := by simpa using h1
      cases s
      simp only at hn
      simp [hn]
    have h3 : rest.map Subtitle.index =
        (List.range rest.length).map (fun k : Nat => (n + 1) + (k : Int)) := by
      rw [h2]
      apply List.map_congr_left
      intro k _
      simp only [Function.comp]
      push_cast
      ring
    rw [hs, ih (n + 1) (fun x hx => hc x (List.mem_cons_of_mem s hx)) h3]

theorem compose_renderList (subs : List Subtitle) (h : canonicalList subs) :
    compose subs true 1 true = renderList subs := by
  obtain ⟨hgood, hsorted, hidx⟩ := h
  have hpair : List.Pairwise (fun a b => startLe a b = true) subs :=
    hsorted.imp (fun hab => (startLe_iff _ _).mpr hab)
  have hms : subs.mergeSort startLe = subs := List.mergeSort_of_sorted hpair
  have hnc : ∀ x ∈ subs, contentless x = false := fun x hx =>
    contentless_false_of_good (goodSub_spec (hgood x hx)).2.2.2.2.2.1
  have hri : reindexFrom 1 subs = subs := reindexFrom_id subs 1 hnc hidx
  rw [compose]
  simp only [if_pos trivial]
  rw [sort_and_reindex, hms, hri]
  rfl

/-! ### Lemmas: the contiguity validator -/

theorem ChainInv_mono_lo : ∀ {ms : List RawMatch} {lo hi lo' : Nat},
    ChainInv ms lo hi → lo' ≤ lo → ChainInv ms lo' hi := by
  intro ms lo hi lo' h hle
  cases ms with
  | nil => simp only [ChainInv] at h ⊢; omega
  | cons m rest =>
    simp only [ChainInv] at h ⊢
    obtain ⟨h1, h2, h3, h4⟩ := h
    exact ⟨by omega, h2, h3, h4⟩

theorem findFromF_chain : ∀ (fuel : Nat) (s : Str) (pos : Nat),
    ChainInv (findFromF fuel s pos) pos (pos + s.length) := by
  intro fuel
  induction fuel with
  | zero => intro s pos; simp only [findFromF, ChainInv]; omega
  | succ f ih =>
    intro s pos
    simp only [findFromF]
    rcases hm : matchBlock s with _ | ⟨b, rest⟩
    · rcases s with _ | ⟨c, t⟩
      · simp only [ChainInv]; omega
      · simp only []
        have h2 : ChainInv (findFromF f t (pos + 1)) pos (pos + 1 + t.length) :=
          ChainInv_mono_lo (ih t (pos + 1)) (by omega)
        have h3 : pos + 1 + t.length = pos + (c :: t).length := by
          simp only [List.length_cons]; omega
        rwa [h3] at h2
    · have hlt := matchBlock_rest_lt hm
      have hih := ih rest (pos + (s.length - rest.length))
      simp only [ChainInv]
      refine ⟨le_refl pos, by omega, by omega, ?_⟩
      have he : pos + (s.length - rest.length) + rest.length = pos + s.length := by
        omega
      rwa [he] at hih

theorem checkContiguous_ok_spansOk (s : Str) :
    ∀ (ms : List RawMatch) (pos : Nat) (subs : List Subtitle),
    checkContiguous s pos ms = .ok subs → spansOk s pos ms = true := by
  intro ms
  induction ms with
  | nil =>
    intro pos subs h
    simp only [checkContiguous] at h
    split at h
    · rename_i hp
      simp [spansOk, hp]
    · exact absurd h (by simp)
  | cons m rest ih =>
    intro pos subs h
    simp only [checkContiguous] at h
    split at h
    · rename_i hp
      rcases hc : checkContiguous s m.endPos rest with e | subs2 <;> rw [hc] at h
      · exact absurd h (by simp)
      · simp only [spansOk, Bool.and_eq_true, beq_iff_eq]
        exact ⟨hp, ih m.endPos subs2 hc⟩
    · exact absurd h (by simp)

theorem checkContiguous_error_fields (s : Str) :
    ∀ (ms : List RawMatch) (pos : Nat) (e : SRTParseError),
    ChainInv ms pos s.length →
    checkContiguous s pos ms = .error e →
    e.unmatched_content = sliceStr s e.expected_start e.actual_start ∧
    e.expected_start ≤ e.actual_start ∧ e.actual_start ≤ s.length := by
  intro ms
  induction ms with
  | nil =>
    intro pos e hinv h
    simp only [ChainInv] at hinv
    simp only [checkContiguous] at h
    split at h
    · exact absurd h (by simp)
    · rw [Except.error.injEq] at h
      subst h
      exact ⟨rfl, hinv, le_refl _⟩
  | cons m rest ih =>
    intro pos e hinv h
    simp only [ChainInv] at hinv
    obtain ⟨h1, h2, h3, h4⟩ := hinv
    simp only [checkContiguous] at h
    split at h
    · rcases hc : checkContiguous s m.endPos rest with e2 | subs2 <;> rw [hc] at h
      · dsimp only at h
        rw [Except.error.injEq] at h
        subst h
        exact ih m.endPos e2 h4 hc
      · exact absurd h (by simp)
    · rw [Except.error.injEq] at h
      subst h
      refine ⟨rfl, h1, ?_⟩
      show m.startPos ≤ s.length
      omega

/-! ### The round-trip and totality claims -/

/-- C1: for every well-formed SRT text (the rendering of a canonical
subtitle list: consecutive indices from 1, start-sorted, non-blank
content lines, no stray whitespace), parsing succeeds and composing the
parsed subtitles with the default flags (reindex, start_index 1, strict)
reproduces the input exactly. -/
theorem parse_compose_roundtrip (t : Str) (h : wellFormedText t) :
    ∃ subs, parse t = .ok subs ∧ compose subs true 1 true = t := by
  obtain ⟨subs, hcan, rfl⟩ := h
  exact ⟨subs, parse_renderList subs hcan.1, compose_renderList subs hcan⟩

theorem parse_compose_roundtrip_witness :
    wellFormedText "1\n00:00:01,000 --> 00:00:02,000\nHello\n\n".data ∧
    ∃ subs, parse "1\n00:00:01,000 --> 00:00:02,000\nHello\n\n".data = .ok subs ∧
      compose subs true 1 true = "1\n00:00:01,000 --> 00:00:02,000\nHello\n\n".data := by
  have hw : wellFormedText "1\n00:00:01,000 --> 00:00:02,000\nHello\n\n".data :=
    ⟨[⟨1, ⟨1000000⟩, ⟨2000000⟩, "Hello".data, []⟩],
      ⟨by decide, by decide, by decide⟩, by decide⟩
  exact ⟨hw, parse_compose_roundtrip _ hw⟩

/-- C2: on every input, parse either succeeds with matches whose spans
exactly tile the input from offset 0 to its length, or fails with an
SRTParseError whose unmatched_content is exactly the input slice between
its expected_start and actual_start offsets, both within the input; in
particular unconsumed trailing text errors with actual_start equal to
the input length, and no input character is silently dropped. -/
theorem parse_total_or_error (s : Str) :
    (∃ subs, parse s = .ok subs ∧ spansOk s 0 (findAllMatches s) = true) ∨
    (∃ e, parse s = .error e ∧
      e.unmatched_content = sliceStr s e.expected_start e.actual_start ∧
      e.expected_start ≤ e.actual_start ∧ e.actual_start ≤ s.length) := by
  have hchain : ChainInv (findAllMatches s) 0 s.length := by
    have h0 := findFromF_chain (s.length + 1) s 0
    simpa [findAllMatches] using h0
  rcases hp : parse s with e | subs
  · right
    exact ⟨e, rfl, checkContiguous_error_fields s (findAllMatches s) 0 e hchain hp⟩
  · left
    exact ⟨subs, rfl, checkContiguous_ok_spansOk s (findAllMatches s) 0 subs hp⟩

/-- C9: whenever the matched spans fail to tile the input, parse fails
with an SRTParseError and yields no subtitles at all: the error is fatal
to the whole parse call and no partial result escapes. -/
theorem parse_no_partial_on_gap (s : Str)
    (h : spansOk s 0 (findAllMatches s) = false) :
    (∃ e, parse s = .error e) ∧ ∀ subs, parse s ≠ .ok subs := by
  rcases hp : parse s with e | subs
  · refine ⟨⟨e, rfl⟩, ?_⟩
    intro subs2
    simp
  · have hs := checkContiguous_ok_spansOk s (findAllMatches s) 0 subs hp
    rw [h] at hs
    exact absurd hs (by simp)

theorem parse_no_partial_on_gap_witness :
    spansOk ['x'] 0 (findAllMatches ['x']) = false ∧
    (∃ e, parse ['x'] = .error e) ∧ ∀ subs, parse ['x'] ≠ .ok subs :=
  ⟨by decide, parse_no_partial_on_gap ['x'] (by decide)⟩

/-- C7 (amended): injected text between two valid blocks produces an
SRTParseError carrying exactly the injected text only when the injection
passes the tokenizer look-ahead (digits, newline, digits, colon) without
starting a valid block, as "5\n6:" does here: the error spans exactly
offsets 39 to 43, the injected span.  (Injected text failing the
look-ahead is instead absorbed into the preceding block's content and
parse succeeds; see the counterexample to the unamended claim.) -/
theorem parse_injected_lookahead_error :
    parse ("1\n00:00:01,000 --> 00:00:02,000\nHello\n\n".data ++
        ("5\n6:".data ++ "2\n00:00:03,000 --> 00:00:04,000\nWorld\n\n".data)) =
      .error ⟨39, 43, "5\n6:".data⟩ := by
  decide

/-- Counterexample to C7 as stated: a single character injected between
two valid blocks need not produce any error; the lazy content group
absorbs the injection and the second block into the first block's
content and parse succeeds. -/
theorem parse_injected_absorbed_counterexample :
    parse ("1\n00:00:01,000 --> 00:00:02,000\nHello\n\n".data ++
        ('x' :: "2\n00:00:03,000 --> 00:00:04,000\nWorld\n\n".data)) =
      .ok [⟨1, ⟨1000000⟩, ⟨2000000⟩,
        "Hello\n\nx2\n00:00:03,000 --> 00:00:04,000\nWorld".data, []⟩] := by
  decide

end Srt
